import Mathlib

/-!
Verification of the bircher archive-export pipeline against its
natural-language specification.

The repository's `src/bircher/_main_window.py` is embedded shallowly:
pure helper behaviour becomes Lean functions, the window's Qt event
handling becomes an explicit step function on a window-state record, and
the worker thread's signal emissions become an explicit event trace.
Components of the repository that live outside `_main_window.py`
(`utils.write_archive`, `models.Image`, the `widgets` collection classes)
are modelled from the specification, as marked on each definition.
-/

namespace Bircher

/-- Byte strings are modelled as lists of natural numbers. -/
abbrev Bytes := List Nat

/-- A filesystem maps a source path to the bytes of the file stored
there, or `none` when no readable file exists at that path. -/
abbrev FS := String → Option Bytes

/-- Modelled from the spec: `models.Image` (module not in `src/`), the
Image Reference — an immutable record of a source filesystem path and an
archive-relative POSIX path.  The attribute name `posix_path` is grounded
in `_main_window.py`, which reads `img.posix_path`. -/
structure Image where
  source_path : String
  posix_path : String
deriving DecidableEq, Repr

/-- Result of fully driving one `write_archive` generator: the images it
yielded in order, the archive members written (name, bytes) in order, and
the source path of the first read failure, if any. -/
structure WriterResult where
  yielded : List Image
  members : List (String × Bytes)
  err : Option String
deriving DecidableEq, Repr

/-- Modelled from the spec: `utils.write_archive` (module not in `src/`),
the Archive Writer — a generator that, per image in input order, reads the
source file's bytes in full, appends them as a new archive member named by
the image's `posix_path`, and yields the image; the first source-read
failure terminates the run with an error and no further items are
processed. -/
def write_archive (fs : FS) : List Image → WriterResult
  | [] => ⟨[], [], none⟩
  | img :: rest =>
    match fs img.source_path with
    | none => ⟨[], [], some img.source_path⟩
    | some bytes =>
      let r := write_archive fs rest
      ⟨img :: r.yielded, (img.posix_path, bytes) :: r.members, r.err⟩

/-- A notification emitted by the worker thread: the three Qt signals
`step(int, Image)`, `completed()` and `error(Exception)` of
`MainWindow.ArchiveWriterThread`, with the exception carried by `error`
modelled as the failing source path. -/
inductive Event where
  | step : Nat → Image → Event
  | completed : Event
  | error : String → Event
deriving DecidableEq, Repr

/-- The signal trace of `MainWindow.ArchiveWriterThread.run` over a given
image sequence: it enumerates the `write_archive` generator, emitting
`step i img` for each yielded image, then `completed` on normal
exhaustion; any exception escaping the writer is caught and converted
into a single `error` notification. -/
def ArchiveWriterThread_run (fs : FS) (images : List Image) : List Event :=
  ((write_archive fs images).yielded.enum.map fun p => Event.step p.1 p.2) ++
    match (write_archive fs images).err with
    | none => [Event.completed]
    | some e => [Event.error e]

/-- Whether an event is an `error` notification. -/
def Event.isError : Event → Bool
  | .error _ => true
  | _ => false

theorem write_archive_err_none_iff (fs : FS) (images : List Image) :
    (write_archive fs images).err = none ↔
      ∀ img ∈ images, (fs img.source_path).isSome = true := by
  induction images with
  | nil => simp [write_archive]
  | cons img rest ih =>
    cases h : fs img.source_path with
    | none =>
      simp only [write_archive, h]
      constructor
      · intro hc
        exact absurd hc (by simp)
      · intro hall
        have := hall img (by simp)
        rw [h] at this
        simp at this
    | some bytes =>
      simp only [write_archive, h]
      constructor
      · intro hc img' hm
        rcases List.mem_cons.mp hm with heq | hm'
        · rw [heq, h]; rfl
        · exact (ih.mp hc) img' hm'
      · intro hall
        exact ih.mpr fun img' hm' => hall img' (List.mem_cons_of_mem _ hm')

theorem write_archive_yielded_of_err_none (fs : FS) (images : List Image)
    (h : (write_archive fs images).err = none) :
    (write_archive fs images).yielded = images := by
  induction images with
  | nil => simp [write_archive]
  | cons img rest ih =>
    cases hf : fs img.source_path with
    | none => simp [write_archive, hf] at h
    | some bytes =>
      simp only [write_archive, hf] at h ⊢
      rw [ih h]

theorem write_archive_members_eq (fs : FS) (images : List Image)
    (contents : Image → Bytes)
    (h : ∀ img ∈ images, fs img.source_path = some (contents img)) :
    (write_archive fs images).members =
      images.map (fun img => (img.posix_path, contents img)) ∧
    (write_archive fs images).err = none := by
  induction images with
  | nil => simp [write_archive]
  | cons img rest ih =>
    have hf : fs img.source_path = some (contents img) := h img (by simp)
    have ihr := ih fun img' hm' => h img' (List.mem_cons_of_mem _ hm')
    simp only [write_archive, hf, List.map_cons]
    exact ⟨by rw [ihr.1], ihr.2⟩

/-- C1: on every error-free run over `N` images,
`ArchiveWriterThread.run` emits exactly `N` `step` notifications carrying
indices `0` to `N-1` in strictly increasing order with no gaps, each
paired with the image at that index of the input sequence, followed by
the single `completed` notification — the whole trace equals the
enumeration of the input sequence mapped to `step` events, with
`completed` appended last. -/
theorem run_success_trace (fs : FS) (images : List Image)
    (h : (write_archive fs images).err = none) :
    ArchiveWriterThread_run fs images =
      (images.enum.map fun p => Event.step p.1 p.2) ++ [Event.completed] := by
  unfold ArchiveWriterThread_run
  rw [write_archive_yielded_of_err_none fs images h, h]

/-- Witness for C1 at a concrete filesystem and two-image input. -/
theorem run_success_trace_witness :
    (write_archive
        (fun s => if s = "a.png" then some [1, 2] else
          if s = "b.png" then some [3] else none)
        [⟨"a.png", "x/a.png"⟩, ⟨"b.png", "x/b.png"⟩]).err = none ∧
    ArchiveWriterThread_run
        (fun s => if s = "a.png" then some [1, 2] else
          if s = "b.png" then some [3] else none)
        [⟨"a.png", "x/a.png"⟩, ⟨"b.png", "x/b.png"⟩] =
      [Event.step 0 ⟨"a.png", "x/a.png"⟩, Event.step 1 ⟨"b.png", "x/b.png"⟩,
        Event.completed] := by
  refine ⟨by decide, ?_⟩
  rw [run_success_trace _ _ (by decide)]
  decide

/-- C2: on every run in which the Archive Writer raises an error, the
wrapper emits the yielded-prefix `step` notifications followed by exactly
one `error` notification carrying that error; no `completed` notification
is emitted, no `step` notification follows the error, the error is the
last notification of the run, and the trace contains exactly one error
event (no retry). -/
theorem run_error_trace (fs : FS) (images : List Image) (e : String)
    (h : (write_archive fs images).err = some e) :
    ArchiveWriterThread_run fs images =
      ((write_archive fs images).yielded.enum.map fun p => Event.step p.1 p.2)
        ++ [Event.error e] ∧
    Event.completed ∉ ArchiveWriterThread_run fs images ∧
    (ArchiveWriterThread_run fs images).getLast? = some (Event.error e) ∧
    ((ArchiveWriterThread_run fs images).filter Event.isError).length = 1 := by
  have htr : ArchiveWriterThread_run fs images =
      ((write_archive fs images).yielded.enum.map fun p => Event.step p.1 p.2)
        ++ [Event.error e] := by
    unfold ArchiveWriterThread_run
    rw [h]
  refine ⟨htr, ?_, ?_, ?_⟩
  · rw [htr]
    simp
  · rw [htr, List.getLast?_concat]
  · rw [htr, List.filter_append]
    have hnil : (((write_archive fs images).yielded.enum.map
        fun p => Event.step p.1 p.2).filter Event.isError) = [] := by
      rw [List.filter_eq_nil_iff]
      intro a ha
      rcases List.mem_map.mp ha with ⟨p, _, hp⟩
      rw [← hp]
      simp [Event.isError]
    rw [hnil]
    rfl

/-- Witness for C2 at a concrete filesystem where the second source file
is missing. -/
theorem run_error_trace_witness :
    (write_archive
        (fun s => if s = "a.png" then some [1] else none)
        [⟨"a.png", "x/a.png"⟩, ⟨"missing.png", "x/b.png"⟩]).err =
      some "missing.png" ∧
    ArchiveWriterThread_run
        (fun s => if s = "a.png" then some [1] else none)
        [⟨"a.png", "x/a.png"⟩, ⟨"missing.png", "x/b.png"⟩] =
      [Event.step 0 ⟨"a.png", "x/a.png"⟩, Event.error "missing.png"] := by
  refine ⟨by decide, ?_⟩
  rw [(run_error_trace _ _ "missing.png" (by decide)).1]
  decide

/-- C3: for every non-empty, duplicate-free list of valid
(source path, archive-relative path) pairs, the Archive Writer as driven
by `ArchiveWriterThread.run` completes without error and produces an
archive containing exactly one member per input, in input order, whose
member names are the archive-relative paths and whose contents are
byte-identical to the corresponding source files. -/
theorem write_archive_output_spec (fs : FS) (images : List Image)
    (contents : Image → Bytes)
    (hne : images ≠ [])
    (hnodup : (images.map Image.posix_path).Nodup)
    (hvalid : ∀ img ∈ images, fs img.source_path = some (contents img)) :
    (write_archive fs images).members =
      images.map (fun img => (img.posix_path, contents img)) ∧
    (write_archive fs images).err = none ∧
    (write_archive fs images).members.map Prod.fst =
      images.map Image.posix_path := by
  have h := write_archive_members_eq fs images contents hvalid
  refine ⟨h.1, h.2, ?_⟩
  rw [h.1, List.map_map]
  rfl

/-- Witness for C3 at a concrete filesystem and two-image input. -/
theorem write_archive_output_spec_witness :
    ([⟨"a.png", "x/a.png"⟩, ⟨"b.png", "x/b.png"⟩] : List Image) ≠ [] ∧
    (write_archive
        (fun s => if s = "a.png" then some [1, 2] else
          if s = "b.png" then some [3] else none)
        [⟨"a.png", "x/a.png"⟩, ⟨"b.png", "x/b.png"⟩]).members =
      [("x/a.png", [1, 2]), ("x/b.png", [3])] := by
  refine ⟨by decide, ?_⟩
  have h := write_archive_output_spec
    (fun s => if s = "a.png" then some [1, 2] else
      if s = "b.png" then some [3] else none)
    [⟨"a.png", "x/a.png"⟩, ⟨"b.png", "x/b.png"⟩]
    (fun img => if img.source_path = "a.png" then [1, 2] else [3])
    (by decide) (by decide) (by decide)
  rw [h.1]
  decide

/-- A heap of shared mutable image lists: each Python reference to a
`ConsensusImageList` object is a `Nat`, mapped to the list's current
contents.  Modelled from the spec: the Image Collection is an ordered
sequence of Image References, mutated by user actions. -/
abbrev ImageListHeap := Nat → List Image

/-- The fields stored by `MainWindow.ArchiveWriterThread.__init__`: the
destination path and the image-sequence object itself
(`self._images = images`) — a reference, with no copy taken. -/
structure ArchiveWriterThreadState where
  archive_file : String
  images_ref : Nat
deriving DecidableEq, Repr

/-- `MainWindow.ArchiveWriterThread.__init__`: stores the destination
path and the given image-sequence reference, copying nothing. -/
def ArchiveWriterThread_init (archive_file : String) (images_ref : Nat) :
    ArchiveWriterThreadState :=
  ⟨archive_file, images_ref⟩

/-- The signal trace of a started `ArchiveWriterThread` against the
shared heap: `run` iterates `self._images`, i.e. the referenced list's
contents as of iteration time, not a start-time copy. -/
def ArchiveWriterThread_run_shared (fs : FS) (heap : ImageListHeap)
    (t : ArchiveWriterThreadState) : List Event :=
  ArchiveWriterThread_run fs (heap t.images_ref)

/-- `MainWindow._on_regex_line_edit_text_changed`: on non-empty text,
attempt to compile it as a regular expression (compilation is the
abstract `re_compile`, `none` meaning `re.error` was raised); on success
the pattern is the compiled text and the line edit turns white, on
failure the pattern is `None` and the line edit turns red; on empty text
the pattern is `None` and the line edit turns white.  Returns the pattern
passed to `ImageTableModel.set_posix_path_pattern` and the stylesheet
colour. -/
def _on_regex_line_edit_text_changed {Pat : Type}
    (re_compile : String → Option Pat) (text : String) :
    Option Pat × String :=
  if text ≠ "" then
    match re_compile text with
    | some p => (some p, "background-color: white")
    | none => (none, "background-color: red")
  else (none, "background-color: white")

/-- Modelled from the spec: `ConsensusImageList.pop` (the `widgets`
module is not in `src/`) — removal-by-index on the ordered Image
Collection, with Python `list.pop(i)` semantics. -/
def ConsensusImageList_pop (images : List Image) (i : Nat) : List Image :=
  images.eraseIdx i

/-- `MainWindow._on_remove_selected_rows_button_clicked`: sorts the
selected row indices in descending order and pops each from the Image
Collection. -/
def _on_remove_selected_rows_button_clicked (images : List Image)
    (selectedRows : List Nat) : List Image :=
  (selectedRows.insertionSort (· ≥ ·)).foldl ConsensusImageList_pop images

/-- The enabled state of the create-archive button computed by
`MainWindow._update_button_states`: the thread field is `None`, the
collection is non-empty, and the set of `posix_path` values has the same
cardinality as the collection (no duplicate archive-relative paths). -/
def create_archive_enabled (thread_is_none : Bool) (images : List Image) :
    Bool :=
  thread_is_none && decide (0 < images.length) &&
    decide ((images.map Image.posix_path).dedup.length = images.length)

/-- The enabled state of the remove-selected-rows button computed by
`MainWindow._update_button_states`: the thread field is `None` and the
selection model has a selection. -/
def remove_selected_rows_enabled (thread_is_none : Bool)
    (has_selection : Bool) : Bool :=
  thread_is_none && has_selection

/-- An in-flight run as recorded in `MainWindow._thread`: the destination
file chosen in the save dialog and the image sequence passed to
`ArchiveWriterThread`. -/
structure RunState where
  archive_file : String
  input : List Image
deriving DecidableEq, Repr

/-- The state of a `MainWindow`: the `_thread` field (an in-flight run or
`None`), the Image Collection `_images`, the table model's current
`posix_path_pattern`, the status-bar message, the progress bar, and the
table view's selected row indices. -/
structure MainWindowState where
  thread : Option RunState
  images : List Image
  posix_path_pattern : Option String
  status_message : String
  progress_hidden : Bool
  progress_value : Nat
  progress_max : Nat
  selection : List Nat
deriving DecidableEq, Repr

/-- The initial state established by `MainWindow.__init__`: no thread,
empty collection, no pattern, status `Ready`, hidden progress bar, empty
selection. -/
def MainWindow_init : MainWindowState :=
  ⟨none, [], none, "Ready", true, 0, 0, []⟩

/-- The events driving a `MainWindow`: text edits of the filter box,
selection changes, the two button clicks (a click reaches a handler only
while the button is enabled), and the three signals delivered from the
worker thread. -/
inductive UIEvent where
  | regexTextChanged (text : String)
  | selectionChanged (rows : List Nat)
  | removeRowsClicked
  | createArchiveClicked (dialog_file : Option String)
  | threadStep (i : Nat) (img : Image)
  | threadCompleted
  | threadError (msg : String)
deriving DecidableEq, Repr

/-- Whether an event belongs to an export run: the click that starts it
and the three thread signals. -/
def UIEvent.isExportEvent : UIEvent → Bool
  | .createArchiveClicked _ => true
  | .threadStep _ _ => true
  | .threadCompleted => true
  | .threadError _ => true
  | _ => false

/-- One step of the `MainWindow` event handling, from
`_on_regex_line_edit_text_changed`, `_on_remove_selected_rows_button_clicked`,
`_on_create_archive_button_clicked` and the three slots it connects to
the thread's signals.  Button-click events take effect only while the
button is enabled per `_update_button_states` (Qt emits no `clicked`
signal from a disabled button); thread signals take effect only while a
run is in flight. -/
def MainWindow_step (re_compile : String → Option String)
    (s : MainWindowState) : UIEvent → MainWindowState
  | .regexTextChanged text =>
      { s with posix_path_pattern :=
          (_on_regex_line_edit_text_changed re_compile text).1 }
  | .selectionChanged rows => { s with selection := rows }
  | .removeRowsClicked =>
      if remove_selected_rows_enabled s.thread.isNone (!s.selection.isEmpty)
      then
        { s with
            images := _on_remove_selected_rows_button_clicked s.images
              s.selection,
            selection := [] }
      else s
  | .createArchiveClicked dialog_file =>
      if create_archive_enabled s.thread.isNone s.images then
        match dialog_file with
        | some f =>
            { s with
                thread := some ⟨f, s.images⟩,
                status_message := "Creating archive...",
                progress_max := s.images.length,
                progress_hidden := false,
                progress_value := 0 }
        | none => s
      else s
  | .threadStep i _img =>
      match s.thread with
      | some _ => { s with progress_value := i + 1 }
      | none => s
  | .threadCompleted =>
      match s.thread with
      | some _ =>
          { s with
              status_message := "Archive created",
              progress_hidden := true,
              thread := none }
      | none => s
  | .threadError msg =>
      match s.thread with
      | some _ =>
          { s with
              status_message := "Error: " ++ msg,
              progress_hidden := true,
              thread := none }
      | none => s

/-- C4 counterexample: the wrapper takes no snapshot.
`ArchiveWriterThread.__init__` stores the live list reference
(`self._images = images`), so mutating the shared collection after the
run starts (here: popping the second image) changes the run's trace away
from the trace over the unmutated start-time sequence
`[a.png, b.png]`. -/
theorem no_snapshot_counterexample :
    ArchiveWriterThread_run_shared
        (fun s => if s = "a.png" then some [1] else
          if s = "b.png" then some [2] else none)
        (fun _ => [⟨"a.png", "x/a.png"⟩])
        (ArchiveWriterThread_init "out.tar.gz" 0) ≠
      ArchiveWriterThread_run
        (fun s => if s = "a.png" then some [1] else
          if s = "b.png" then some [2] else none)
        [⟨"a.png", "x/a.png"⟩, ⟨"b.png", "x/b.png"⟩] := by
  decide

/-- C4 (amended): the Background Execution Wrapper stores a reference to
the live Image Collection rather than a start-time snapshot; the run's
notifications follow the referenced list's contents as of iteration
time, so they match a run over the start-time sequence exactly when the
collection is unmutated in between, and the UI prevents such mutation
while a run is in flight by disabling the remove-selected-rows
control. -/
theorem shared_reference_run :
    (∀ (fs : FS) (heap heap2 : ImageListHeap)
        (t : ArchiveWriterThreadState),
      heap2 t.images_ref = heap t.images_ref →
      ArchiveWriterThread_run_shared fs heap2 t =
        ArchiveWriterThread_run fs (heap t.images_ref)) ∧
    (∀ s : MainWindowState, s.thread.isSome = true →
      remove_selected_rows_enabled s.thread.isNone (!s.selection.isEmpty) =
        false) := by
  constructor
  · intro fs heap heap2 t h
    unfold ArchiveWriterThread_run_shared
    rw [h]
  · intro s h
    rcases Option.isSome_iff_exists.mp h with ⟨r, hr⟩
    rw [remove_selected_rows_enabled, hr]
    rfl

/-- Witness for the amended C4 at a concrete thread, heaps and window
state. -/
theorem shared_reference_run_witness :
    ((fun _ => [(⟨"a.png", "x/a.png"⟩ : Image)]) : ImageListHeap) 0 =
      ((fun _ => [(⟨"a.png", "x/a.png"⟩ : Image)]) : ImageListHeap) 0 ∧
    ArchiveWriterThread_run_shared (fun _ => some [1])
        (fun _ => [⟨"a.png", "x/a.png"⟩])
        (ArchiveWriterThread_init "out.tar.gz" 0) =
      ArchiveWriterThread_run (fun _ => some [1])
        (((fun _ => [(⟨"a.png", "x/a.png"⟩ : Image)]) : ImageListHeap) 0) ∧
    remove_selected_rows_enabled
        (MainWindowState.thread ⟨some ⟨"f", []⟩, [], none, "", true, 0, 0,
          [0]⟩).isNone
        (!(MainWindowState.selection ⟨some ⟨"f", []⟩, [], none, "", true, 0,
          0, [0]⟩).isEmpty) = false := by
  refine ⟨rfl, ?_, ?_⟩
  · exact shared_reference_run.1 (fun _ => some [1])
      (fun _ => [⟨"a.png", "x/a.png"⟩]) (fun _ => [⟨"a.png", "x/a.png"⟩])
      (ArchiveWriterThread_init "out.tar.gz" 0) rfl
  · exact shared_reference_run.2
      ⟨some ⟨"f", []⟩, [], none, "", true, 0, 0, [0]⟩ rfl

/-- C5: whenever two images of the collection (at distinct positions)
share the same archive-relative POSIX path, `_update_button_states`
disables the create-archive button, so no export run can start; and the
Archive Writer itself performs no duplicate check — its error outcome
depends only on source-file readability, duplicates or not. -/
theorem duplicate_posix_path_rejected (thread_is_none : Bool)
    (images : List Image) (i j : Nat)
    (hi : i < images.length) (hj : j < images.length) (hij : i ≠ j)
    (hdup : (images.get ⟨i, hi⟩).posix_path =
      (images.get ⟨j, hj⟩).posix_path) :
    create_archive_enabled thread_is_none images = false ∧
    ∀ fs : FS, ((write_archive fs images).err = none ↔
      ∀ img ∈ images, (fs img.source_path).isSome = true) := by
  refine ⟨?_, fun fs => write_archive_err_none_iff fs images⟩
  have hlen : (images.map Image.posix_path).length = images.length :=
    List.length_map _ _
  have hnd : ¬ ((images.map Image.posix_path).dedup.length =
      images.length) := by
    intro hl
    have hsub := List.dedup_sublist (images.map Image.posix_path)
    have heq : (images.map Image.posix_path).dedup =
        images.map Image.posix_path :=
      hsub.eq_of_length (by rw [hl, hlen])
    have hnodup : (images.map Image.posix_path).Nodup :=
      List.dedup_eq_self.mp heq
    have hgi : (images.map Image.posix_path).get ⟨i, by rw [hlen]; exact hi⟩
        = (images.map Image.posix_path).get ⟨j, by rw [hlen]; exact hj⟩ := by
      rw [List.get_map, List.get_map]
      exact hdup
    have := (List.Nodup.get_inj_iff hnodup).mp hgi
    exact hij (congrArg Fin.val this)
  rw [create_archive_enabled, Bool.and_eq_false_iff]
  right
  exact decide_eq_false hnd

/-- Witness for C5 at a concrete two-image collection sharing one
archive-relative path. -/
theorem duplicate_posix_path_rejected_witness :
    (0 : Nat) ≠ 1 ∧
    create_archive_enabled true
      [⟨"a.png", "same.png"⟩, ⟨"b.png", "same.png"⟩] = false := by
  refine ⟨by decide, ?_⟩
  exact (duplicate_posix_path_rejected true
    [⟨"a.png", "same.png"⟩, ⟨"b.png", "same.png"⟩] 0 1
    (by decide) (by decide) (by decide) (by decide)).1

/-- C6: at most one run is active at a time (the `_thread` field holds at
most one run): in every window state with a run in flight, a click of
the create-archive button leaves the state unchanged (the button is
disabled, so no new run starts), the `completed` and `error` signals
reset the field to `None`, and no other event resets it — so the field
becomes `None` exactly at the run's terminal notification.  The
properties hold in every state, hence in every state reachable from
`MainWindow_init`. -/
theorem single_active_run (re_compile : String → Option String) :
    (∀ (s : MainWindowState) (d : Option String), s.thread.isSome = true →
      MainWindow_step re_compile s (.createArchiveClicked d) = s) ∧
    (∀ s : MainWindowState, s.thread.isSome = true →
      (MainWindow_step re_compile s .threadCompleted).thread = none ∧
      ∀ m, (MainWindow_step re_compile s (.threadError m)).thread = none) ∧
    (∀ (s : MainWindowState) (e : UIEvent), s.thread.isSome = true →
      (MainWindow_step re_compile s e).thread = none →
      e = .threadCompleted ∨ ∃ m, e = .threadError m) := by
  refine ⟨?_, ?_, ?_⟩
  · intro s d h
    rcases Option.isSome_iff_exists.mp h with ⟨r, hr⟩
    simp [MainWindow_step, create_archive_enabled, hr]
  · intro s h
    rcases Option.isSome_iff_exists.mp h with ⟨r, hr⟩
    exact ⟨by simp [MainWindow_step, hr], fun m => by simp [MainWindow_step, hr]⟩
  · intro s e h hn
    rcases Option.isSome_iff_exists.mp h with ⟨r, hr⟩
    cases e with
    | regexTextChanged text => simp [MainWindow_step, hr] at hn
    | selectionChanged rows => simp [MainWindow_step, hr] at hn
    | removeRowsClicked =>
        simp [MainWindow_step, remove_selected_rows_enabled, hr] at hn
    | createArchiveClicked d =>
        simp [MainWindow_step, create_archive_enabled, hr] at hn
    | threadStep i img => simp [MainWindow_step, hr] at hn
    | threadCompleted => exact Or.inl rfl
    | threadError m => exact Or.inr ⟨m, rfl⟩

/-- Witness for C6 at a concrete in-flight state. -/
theorem single_active_run_witness :
    (MainWindowState.thread
      ⟨some ⟨"f", []⟩, [], none, "", true, 0, 0, []⟩).isSome = true ∧
    (MainWindow_step (fun _ => none)
      ⟨some ⟨"f", []⟩, [], none, "", true, 0, 0, []⟩
      .threadCompleted).thread = none := by
  refine ⟨rfl, ?_⟩
  exact ((single_active_run (fun _ => none)).2.1
    ⟨some ⟨"f", []⟩, [], none, "", true, 0, 0, []⟩ rfl).1

theorem step_export_event_preserves_images
    (re_compile : String → Option String) (s : MainWindowState)
    (e : UIEvent) (h : e.isExportEvent = true) :
    (MainWindow_step re_compile s e).images = s.images := by
  cases e with
  | regexTextChanged text => rfl
  | selectionChanged rows => rfl
  | removeRowsClicked => simp [UIEvent.isExportEvent] at h
  | createArchiveClicked d =>
      simp only [MainWindow_step]
      rcases hc : create_archive_enabled s.thread.isNone s.images with _ | _
      · simp
      · cases d with
        | none => simp [hc]
        | some f => simp [hc]
  | threadStep i img =>
      simp only [MainWindow_step]
      cases s.thread <;> rfl
  | threadCompleted =>
      simp only [MainWindow_step]
      cases s.thread <;> rfl
  | threadError m =>
      simp only [MainWindow_step]
      cases s.thread <;> rfl

/-- C7: an export run never mutates the Image Collection — over any
sequence of export events (the starting click and the thread's step,
completed and error signals, in particular a whole run from start to
terminal notification), the collection after equals the collection
before. -/
theorem export_run_preserves_images (re_compile : String → Option String)
    (s : MainWindowState) (evs : List UIEvent)
    (h : ∀ e ∈ evs, e.isExportEvent = true) :
    (evs.foldl (MainWindow_step re_compile) s).images = s.images := by
  induction evs generalizing s with
  | nil => rfl
  | cons e rest ih =>
    rw [List.foldl_cons,
      ih (MainWindow_step re_compile s e)
        (fun e' he' => h e' (List.mem_cons_of_mem _ he')),
      step_export_event_preserves_images re_compile s e (h e (by simp))]

/-- Witness for C7 over a concrete full run: start click, one step,
completion. -/
theorem export_run_preserves_images_witness :
    (∀ e ∈ ([.createArchiveClicked (some "f"),
        .threadStep 0 ⟨"a.png", "p.png"⟩,
        .threadCompleted] : List UIEvent), e.isExportEvent = true) ∧
    (([.createArchiveClicked (some "f"),
        .threadStep 0 ⟨"a.png", "p.png"⟩,
        .threadCompleted] : List UIEvent).foldl
      (MainWindow_step (fun _ => none))
      ⟨none, [⟨"a.png", "p.png"⟩], none, "Ready", true, 0, 0, []⟩).images =
      (⟨none, [⟨"a.png", "p.png"⟩], none, "Ready", true, 0, 0,
        []⟩ : MainWindowState).images := by
  refine ⟨by decide, ?_⟩
  exact export_run_preserves_images (fun _ => none)
    ⟨none, [⟨"a.png", "p.png"⟩], none, "Ready", true, 0, 0, []⟩
    [.createArchiveClicked (some "f"), .threadStep 0 ⟨"a.png", "p.png"⟩,
      .threadCompleted] (by decide)

/-- C8: the filter pattern narrows only the displayed set, never the
exported set — a filter-text change alters exactly the table model's
pattern, leaving the collection, the thread and all other window state
unchanged; and starting an export records the full ordered Image
Collection as the run's input, whatever the current pattern is (the
quantification over all states covers all pattern values). -/
theorem filter_narrows_display_only (re_compile : String → Option String) :
    (∀ (s : MainWindowState) (text : String),
      MainWindow_step re_compile s (.regexTextChanged text) =
        { s with posix_path_pattern :=
            (_on_regex_line_edit_text_changed re_compile text).1 }) ∧
    (∀ (s : MainWindowState) (f : String),
      create_archive_enabled s.thread.isNone s.images = true →
      (MainWindow_step re_compile s (.createArchiveClicked (some f))).thread
        = some ⟨f, s.images⟩) := by
  constructor
  · intro s text
    rfl
  · intro s f h
    simp [MainWindow_step, h]

/-- Witness for C8 at a concrete state with a pattern set and a
one-image collection. -/
theorem filter_narrows_display_only_witness :
    create_archive_enabled
      (MainWindowState.thread ⟨none, [⟨"a.png", "p.png"⟩], some "pat",
        "Ready", true, 0, 0, []⟩).isNone
      (MainWindowState.images ⟨none, [⟨"a.png", "p.png"⟩], some "pat",
        "Ready", true, 0, 0, []⟩) = true ∧
    (MainWindow_step (fun t => some t)
      ⟨none, [⟨"a.png", "p.png"⟩], some "pat", "Ready", true, 0, 0, []⟩
      (.createArchiveClicked (some "out.tar.gz"))).thread =
      some ⟨"out.tar.gz", [⟨"a.png", "p.png"⟩]⟩ := by
  refine ⟨by decide, ?_⟩
  exact (filter_narrows_display_only (fun t => some t)).2
    ⟨none, [⟨"a.png", "p.png"⟩], some "pat", "Ready", true, 0, 0, []⟩
    "out.tar.gz" (by decide)

/-- C9: for every filter text, if the text is empty or fails to compile
(`re_compile` returns `none`, modelling a raised `re.error` that the
handler catches), the pattern passed to the table model is `None`;
otherwise it is exactly the compiled regular expression of that text.
The handler is a total function: no exception escapes it. -/
theorem regex_text_changed_spec {Pat : Type}
    (re_compile : String → Option Pat) (text : String) :
    ((text = "" ∨ re_compile text = none) →
      (_on_regex_line_edit_text_changed re_compile text).1 = none) ∧
    (∀ p : Pat, text ≠ "" → re_compile text = some p →
      (_on_regex_line_edit_text_changed re_compile text).1 = some p) := by
  constructor
  · rintro (h | h)
    · simp [_on_regex_line_edit_text_changed, h]
    · rcases ht : decide (text = "") with _ | _
      · simp only [_on_regex_line_edit_text_changed, ne_eq,
          of_decide_eq_false ht, not_false_eq_true, if_true, h]
      · simp [_on_regex_line_edit_text_changed, of_decide_eq_true ht]
  · intro p hne hc
    simp [_on_regex_line_edit_text_changed, hne, hc]

/-- Witness for C9 at concrete compile functions and texts. -/
theorem regex_text_changed_spec_witness :
    ("" = "" ∨ (fun t : String => some t) "" = none) ∧
    (_on_regex_line_edit_text_changed (fun t : String => some t) "").1 =
      none ∧
    ("abc" : String) ≠ "" ∧
    (_on_regex_line_edit_text_changed (fun t : String => some t) "abc").1 =
      some "abc" := by
  refine ⟨Or.inl rfl, ?_, by decide, ?_⟩
  · exact (regex_text_changed_spec (fun t : String => some t) "").1
      (Or.inl rfl)
  · exact (regex_text_changed_spec (fun t : String => some t) "abc").2
      "abc" (by decide) rfl

/-- Keep the elements of a list whose positions (counted from `i`)
satisfy the predicate `p`, preserving relative order. -/
def keepFrom {α : Type} (p : Nat → Bool) : Nat → List α → List α
  | _, [] => []
  | i, a :: xs =>
      if p i then a :: keepFrom p (i + 1) xs else keepFrom p (i + 1) xs

theorem keepFrom_append {α : Type} (p : Nat → Bool) (xs ys : List α)
    (i : Nat) :
    keepFrom p i (xs ++ ys) =
      keepFrom p i xs ++ keepFrom p (i + xs.length) ys := by
  induction xs generalizing i with
  | nil => simp [keepFrom]
  | cons a xs ih =>
    have hlen : i + (a :: xs).length = i + 1 + xs.length := by
      simp only [List.length_cons]
      omega
    rw [List.cons_append, keepFrom, keepFrom, hlen, ih (i + 1)]
    cases p i <;> simp

theorem keepFrom_of_all_true {α : Type} (p : Nat → Bool) (xs : List α)
    (i : Nat) (h : ∀ j, i ≤ j → p j = true) :
    keepFrom p i xs = xs := by
  induction xs generalizing i with
  | nil => rfl
  | cons a xs ih =>
    rw [keepFrom, h i (Nat.le_refl i),
      ih (i + 1) fun j hj => h j (by omega)]
    simp

theorem keepFrom_congr {α : Type} (p q : Nat → Bool) (xs : List α)
    (i : Nat) (h : ∀ j, i ≤ j → j < i + xs.length → p j = q j) :
    keepFrom p i xs = keepFrom q i xs := by
  induction xs generalizing i with
  | nil => rfl
  | cons a xs ih =>
    have hpq : p i = q i := h i (Nat.le_refl i) (by simp)
    have ihr := ih (i + 1) fun j hj1 hj2 => h j (by omega)
      (by simp only [List.length_cons]; omega)
    rw [keepFrom, keepFrom, hpq, ihr]

theorem keepFrom_cons_of_false {α : Type} (p : Nat → Bool) (a : α)
    (xs : List α) (i : Nat) (h : p i = false) :
    keepFrom p i (a :: xs) = keepFrom p (i + 1) xs := by
  rw [keepFrom, h]
  simp

theorem foldl_eraseIdx_desc {α : Type} (l : List Nat) (xs : List α)
    (hsort : l.Pairwise (· > ·)) (hlt : ∀ r ∈ l, r < xs.length) :
    l.foldl List.eraseIdx xs = keepFrom (fun i => !l.contains i) 0 xs := by
  induction l generalizing xs with
  | nil =>
    rw [List.foldl_nil, keepFrom_of_all_true]
    intro j _
    simp
  | cons r rest ih =>
    have hr : r < xs.length := hlt r (by simp)
    have hgt : ∀ x ∈ rest, x < r :=
      fun x hx => (List.pairwise_cons.mp hsort).1 x hx
    have hrest : rest.Pairwise (· > ·) := (List.pairwise_cons.mp hsort).2
    have hlen : (xs.eraseIdx r).length = xs.length - 1 :=
      List.length_eraseIdx_of_lt hr
    have hlt2 : ∀ x ∈ rest, x < (xs.eraseIdx r).length := by
      intro x hx
      have h1 := hgt x hx
      omega
    rw [List.foldl_cons, ih (xs.eraseIdx r) hrest hlt2]
    have hdecomp : xs.eraseIdx r = xs.take r ++ xs.drop (r + 1) :=
      List.eraseIdx_eq_take_drop_succ xs r
    have htake : (xs.take r).length = r := by
      rw [List.length_take]
      omega
    have hdropc : xs.drop r = xs.get ⟨r, hr⟩ :: xs.drop (r + 1) :=
      List.drop_eq_get_cons hr
    have hxs : xs = xs.take r ++ xs.get ⟨r, hr⟩ :: xs.drop (r + 1) := by
      rw [← hdropc, List.take_append_drop]
    have hleft : keepFrom (fun i => !rest.contains i) 0 (xs.take r) =
        keepFrom (fun i => !((r :: rest).contains i)) 0 (xs.take r) := by
      apply keepFrom_congr
      intro j _ hj2
      rw [htake] at hj2
      simp only [Nat.zero_add] at hj2
      have hjr : j ≠ r := by omega
      simp only [List.contains_cons]
      simp [hjr]
    have hright : keepFrom (fun i => !rest.contains i) r
        (xs.drop (r + 1)) = xs.drop (r + 1) := by
      apply keepFrom_of_all_true
      intro j hj
      have : j ∉ rest := fun hm => by
        have := hgt j hm
        omega
      simp [this]
    have hright2 : keepFrom (fun i => !((r :: rest).contains i)) (r + 1)
        (xs.drop (r + 1)) = xs.drop (r + 1) := by
      apply keepFrom_of_all_true
      intro j hj
      have hjrest : j ∉ rest := fun hm => by
        have := hgt j hm
        omega
      have hjr : j ≠ r := by omega
      simp only [List.contains_cons]
      simp [hjr, hjrest]
    have hstep1 : keepFrom (fun i => !rest.contains i) 0 (xs.eraseIdx r) =
        keepFrom (fun i => !rest.contains i) 0 (xs.take r) ++
          keepFrom (fun i => !rest.contains i) (0 + (xs.take r).length)
            (xs.drop (r + 1)) := by
      rw [hdecomp, keepFrom_append]
    have hstep3 : keepFrom (fun i => !((r :: rest).contains i)) 0 xs =
        keepFrom (fun i => !((r :: rest).contains i)) 0 (xs.take r) ++
          xs.drop (r + 1) := by
      nth_rewrite 1 [hxs]
      rw [keepFrom_append, Nat.zero_add, htake,
        keepFrom_cons_of_false _ _ _ _ (by simp [List.contains_cons]),
        hright2]
    rw [hstep1, Nat.zero_add, htake, hright, hleft, hstep3]

/-- C10: for every duplicate-free set of valid selected row indices, the
remove-selected-rows handler pops indices in strictly descending order,
so the resulting Image Collection is exactly the original sequence with
the elements at the selected indices removed and the relative order of
the remaining elements preserved; and the result is independent of the
order in which the rows were selected (any permutation of the index list
yields the same collection). -/
theorem remove_selected_rows_spec (images : List Image) (rows : List Nat)
    (hnd : rows.Nodup) (hlt : ∀ r ∈ rows, r < images.length) :
    _on_remove_selected_rows_button_clicked images rows =
      keepFrom (fun i => !rows.contains i) 0 images ∧
    ∀ rows2 : List Nat, rows.Perm rows2 →
      _on_remove_selected_rows_button_clicked images rows2 =
        _on_remove_selected_rows_button_clicked images rows := by
  constructor
  · have hperm := List.perm_insertionSort (· ≥ ·) rows
    have hsorted := List.sorted_insertionSort (· ≥ ·) rows
    have hnd2 : (rows.insertionSort (· ≥ ·)).Nodup :=
      hperm.nodup_iff.mpr hnd
    have hpair : (rows.insertionSort (· ≥ ·)).Pairwise (· > ·) :=
      (hsorted.and hnd2).imp fun h => lt_of_le_of_ne h.1 (Ne.symm h.2)
    have hbound : ∀ r ∈ rows.insertionSort (· ≥ ·), r < images.length :=
      fun r hr => hlt r (hperm.mem_iff.mp hr)
    have hmain := foldl_eraseIdx_desc (rows.insertionSort (· ≥ ·)) images
      hpair hbound
    have hc : (fun i => !((rows.insertionSort (· ≥ ·)).contains i)) =
        (fun i => !rows.contains i) := by
      funext i
      have hm : (rows.insertionSort (· ≥ ·)).contains i = rows.contains i := by
        have h1 : (rows.insertionSort (· ≥ ·)).contains i =
            decide (i ∈ rows.insertionSort (· ≥ ·)) := List.elem_eq_mem i _
        have h2 : rows.contains i = decide (i ∈ rows) :=
          List.elem_eq_mem i rows
        rw [h1, h2]
        by_cases hin : i ∈ rows
        · rw [decide_eq_true (hperm.mem_iff.mpr hin), decide_eq_true hin]
        · rw [decide_eq_false (fun hin2 => hin (hperm.mem_iff.mp hin2)),
            decide_eq_false hin]
      rw [hm]
    rw [hc] at hmain
    exact hmain
  · intro rows2 hperm12
    have hsortseq : rows2.insertionSort (· ≥ ·) =
        rows.insertionSort (· ≥ ·) := by
      exact List.eq_of_perm_of_sorted
        ((List.perm_insertionSort (· ≥ ·) rows2).trans
          (hperm12.symm.trans (List.perm_insertionSort (· ≥ ·) rows).symm))
        (List.sorted_insertionSort (· ≥ ·) rows2)
        (List.sorted_insertionSort (· ≥ ·) rows)
    rw [_on_remove_selected_rows_button_clicked,
      _on_remove_selected_rows_button_clicked, hsortseq]

/-- Witness for C10: selecting rows 2 and 0 (in either order) of a
three-image collection leaves exactly the middle image. -/
theorem remove_selected_rows_spec_witness :
    ([2, 0] : List Nat).Nodup ∧
    (∀ r ∈ ([2, 0] : List Nat),
      r < ([⟨"a", "pa"⟩, ⟨"b", "pb"⟩, ⟨"c", "pc"⟩] : List Image).length) ∧
    _on_remove_selected_rows_button_clicked
        [⟨"a", "pa"⟩, ⟨"b", "pb"⟩, ⟨"c", "pc"⟩] [2, 0] =
      keepFrom (fun i => !([2, 0] : List Nat).contains i) 0
        [⟨"a", "pa"⟩, ⟨"b", "pb"⟩, ⟨"c", "pc"⟩] ∧
    _on_remove_selected_rows_button_clicked
        [⟨"a", "pa"⟩, ⟨"b", "pb"⟩, ⟨"c", "pc"⟩] [0, 2] =
      _on_remove_selected_rows_button_clicked
        [⟨"a", "pa"⟩, ⟨"b", "pb"⟩, ⟨"c", "pc"⟩] [2, 0] := by
  have h := remove_selected_rows_spec
    [⟨"a", "pa"⟩, ⟨"b", "pb"⟩, ⟨"c", "pc"⟩] [2, 0]
    (by decide) (by decide)
  exact ⟨by decide, by decide, h.1, h.2 [0, 2] (by decide)⟩

end Bircher
